import Mathlib

/-!
Shallow embedding of the EAN-13 barcode core from `src/main.py`:
the cyclic digit-space walker (`loopstep`, `loop_round`), the checksum
engine (`EAN13._compute_checksum`), the table-driven encoder
(`EAN13Data`, `EAN13._encode`), the identifier constructor
(`EAN13.__init__`) and the collision-free generator (`EAN13.generate`).
Python strings are modelled as lists of characters; a raised exception is
modelled as `none`.
-/

namespace EAN13Spec

/-- Python strings are modelled as lists of characters. -/
abbrev Str := List Char

/-! ## The digit-space walker (`loopstep`, src/main.py lines 39-95) -/

/-- The n-th symbol yielded by `loopstep`'s single-character base case.
The source scans `digits` from the left until it meets the start symbol
(its first occurrence) and then cycles through `digits` forever, so the
n-th yield is the symbol at index `(indexOf start + n) mod length`.
The default 'X' is never reached when the start symbol occurs in `digits`
(when it does not, the source generator yields nothing at all). -/
def cyc (digits : Str) (c : Char) (n : Nat) : Char :=
  digits.getD ((digits.indexOf c + n) % digits.length) 'X'

/-- The break test `all(d == last for d in e)` of `loopstep`, where
`last = digits[-1:]`: every character of `e` equals the final character of
`digits` (with empty `digits` the Python slice is empty and the comparison
with a one-character string is false). -/
def isAllLast (digits : Str) (e : Str) : Bool :=
  e.all fun c => decide (digits.getLast? = some c)

/-- The n-th string yielded by the recursive generator `loopstep`,
with an explicit recursion-depth argument `fuel` standing for the source's
recursion on the tail of the start string (the wrapper `loopstep` below
passes the start string's length, which is exactly the depth used by the
source).  Translation of the source's control flow:

* a single-character start yields the base-case cycle `cyc`;
* otherwise the stream is organised in rows, one row per yield `f` of the
  recursive call on the first character: row 0 runs the inner generator
  from `start[1:]` and each later row runs it from `zero = digits[0] * (l-1)`,
  and a row ends with (and includes) the first inner yield whose characters
  are all the last digit, which is when the source executes `break`;
* the index of that breaking yield is located by searching the first
  `digits.length ^ tail.length` inner yields, the period of the inner cycle
  (always sufficient when the alphabet has no duplicated symbol, the
  intended use); if the search fails the outer symbol stays at its first
  value forever, matching a source inner loop that never breaks. -/
def loopstepF (digits : Str) : Nat → Str → Nat → Str
  | _, [], _ => []
  | _, [d], n => [cyc digits d n]
  | 0, _ :: _ :: _, _ => []
  | fuel + 1, d :: e :: ts, n =>
    let tail := e :: ts
    let T := digits.length ^ tail.length
    let zero : Str := List.replicate tail.length (digits.headD 'X')
    match (List.range T).find? (fun i => isAllLast digits (loopstepF digits fuel tail i)) with
    | none => cyc digits d 0 :: loopstepF digits fuel tail n
    | some i0 =>
      if n < i0 + 1 then cyc digits d 0 :: loopstepF digits fuel tail n
      else
        match (List.range T).find? (fun j => isAllLast digits (loopstepF digits fuel zero j)) with
        | none => cyc digits d 1 :: loopstepF digits fuel zero (n - (i0 + 1))
        | some j0 =>
          cyc digits d (1 + (n - (i0 + 1)) / (j0 + 1)) ::
            loopstepF digits fuel zero ((n - (i0 + 1)) % (j0 + 1))

/-- The n-th string yielded by `loopstep(start, digits)`
(`loopstep` is an infinite generator; `n` counts yields from 0). -/
def loopstep (digits start : Str) (n : Nat) : Str :=
  loopstepF digits start.length start n

/-- The finite list of strings yielded by
`loop_round(start, digits, stop, include_last)` (src/main.py lines 97-120):
the first yield of `loopstep` (which is `start`), then further yields up to
the first recurrence of `stop` — excluded, unless `include_last` is set.
`stop = None` or `stop = ""` (Python falsy) defaults to `start`.  The first
recurrence is located among the first `digits.length ^ start.length` steps,
the period of the cycle; `none` models a `loop_round` generator that never
meets `stop` and hence never terminates. -/
def loopRound (digits start : Str) (stop : Option Str) (includeLast : Bool) :
    Option (List Str) :=
  let stp := match stop with
    | none => start
    | some s => if s = [] then start else s
  match (List.range' 1 (digits.length ^ start.length)).find?
      (fun n => decide (loopstep digits start n = stp)) with
  | none => none
  | some n =>
    some ((List.range n).map (loopstep digits start) ++ if includeLast then [stp] else [])

/-! ## Static EAN-13 data (`EAN13Data`, src/main.py lines 223-309) -/

/-- The ten decimal digit characters, i.e. the digit string 0123456789. -/
def DEC : Str := ['0', '1', '2', '3', '4', '5', '6', '7', '8', '9']

/-- Value of a decimal digit character, Python `int(c)` on a digit. -/
def dv (c : Char) : Nat := c.toNat - '0'.toNat

/-- Python `int(c)` on a single character: the digit value, or a raised
`ValueError` (modelled as `none`) on anything that is not one of the ten
decimal digits. -/
def charDigit (c : Char) : Option Nat :=
  if c ∈ DEC then some (dv c) else none

/-- Python `str(n)` for a single digit value `n < 10`. -/
def natDigitChar (n : Nat) : Char := Char.ofNat ('0'.toNat + n)

/-- Polarity inversion `Code.flip`: `'1' if b == '0' else '0'`, per bar. -/
def flipC (code : Str) : Str :=
  code.map fun b => if b = '0' then '1' else '0'

/-- A single white bar. -/
def white : Str := ['0']

/-- A single black bar. -/
def black : Str := ['1']

/-- String repetition `code * n`. -/
def timesCode (code : Str) (n : Nat) : Str := (List.replicate n code).flatten

/-- The table `A_lengths` without its `first` entry: each digit maps to
its 4-run length pattern, kept in the source's insertion order. -/
def A_lengths : List (Char × Str) :=
  [('0', ['3', '2', '1', '1']), ('1', ['2', '2', '2', '1']),
   ('2', ['2', '1', '2', '2']), ('3', ['1', '4', '1', '1']),
   ('4', ['1', '1', '3', '2']), ('5', ['1', '2', '3', '1']),
   ('6', ['1', '1', '1', '4']), ('7', ['1', '3', '1', '2']),
   ('8', ['1', '2', '1', '3']), ('9', ['3', '1', '1', '2'])]

/-- The table `B_lengths` without its `first` entry. -/
def B_lengths : List (Char × Str) :=
  [('0', ['1', '1', '2', '3']), ('1', ['1', '2', '2', '2']),
   ('2', ['2', '2', '1', '2']), ('3', ['1', '1', '4', '1']),
   ('4', ['2', '3', '1', '1']), ('5', ['1', '3', '2', '1']),
   ('6', ['4', '1', '1', '1']), ('7', ['2', '1', '3', '1']),
   ('8', ['3', '1', '2', '1']), ('9', ['2', '1', '1', '3'])]

/-- The normal guard code, the three bars 101. -/
def normalG : Str := ['1', '0', '1']

/-- The central guard code, the five bars 01010. -/
def centralG : Str := ['0', '1', '0', '1', '0']

/-- `EAN13Data._lengths_to_code`: expand a table of length patterns into a
table of bar codes.  The starting colour is popped once and then carried
across table entries exactly as in the source (each pattern has four runs,
so the colour in fact returns to the start after every entry); within one
entry, each run length `l` contributes `color * int(l)` and flips the
colour. -/
def lengthsToCode (first : Str) (tbl : List (Char × Str)) : List (Char × Str) :=
  (tbl.foldl
    (fun acc p =>
      let step := p.2.foldl
        (fun sc lc => (sc.1 ++ timesCode sc.2 (dv lc), flipC sc.2)) (([] : Str), acc.2)
      (acc.1 ++ [(p.1, step.1)], step.2))
    (([] : List (Char × Str)), first)).1

/-- `elements['A']`: bar codes of set A (starts white). -/
def codesA : List (Char × Str) := lengthsToCode white A_lengths

/-- `elements['B']`: bar codes of set B (starts white). -/
def codesB : List (Char × Str) := lengthsToCode white B_lengths

/-- `elements['C']`: bar codes of set C, the A patterns starting black
(`C_lengths = A_lengths.copy()` with `first` flipped). -/
def codesC : List (Char × Str) := lengthsToCode black A_lengths

/-- Dictionary lookup `data.elements[s][d]` for a parity-set letter `s` and
a digit `d`; `none` models a raised `KeyError`. -/
def elemCode (s d : Char) : Option Str :=
  if s = 'A' then codesA.lookup d
  else if s = 'B' then codesB.lookup d
  else if s = 'C' then codesC.lookup d
  else none

/-- The per-leading-digit parity structure strings (table `structure`
before formatting). -/
def structBase (c : Char) : Option Str :=
  (([('0', ['A', 'A', 'A', 'A', 'A', 'A']), ('1', ['A', 'A', 'B', 'A', 'B', 'B']),
     ('2', ['A', 'A', 'B', 'B', 'A', 'B']), ('3', ['A', 'A', 'B', 'B', 'B', 'A']),
     ('4', ['A', 'B', 'A', 'A', 'B', 'B']), ('5', ['A', 'B', 'B', 'A', 'A', 'B']),
     ('6', ['A', 'B', 'B', 'B', 'A', 'A']), ('7', ['A', 'B', 'A', 'B', 'A', 'B']),
     ('8', ['A', 'B', 'A', 'B', 'B', 'A']), ('9', ['A', 'B', 'B', 'A', 'B', 'A'])]
    : List (Char × Str)).lookup c)

/-- The full structure template for a leading digit, the base template
wrapped as in the source format string: normal guard, six templated
symbols, central guard, six set-C symbols, normal guard.  `none` models
the `KeyError` on a non-digit. -/
def structureOf (c : Char) : Option Str :=
  (structBase c).map fun v =>
    'n' :: v ++ 'c' :: ['C', 'C', 'C', 'C', 'C', 'C', 'n']

/-! ## The encoder (`EAN13._encode`, src/main.py lines 347-369) -/

/-- The encoding loop `for element in structure`: a guard symbol emits its
guard code, any other symbol consumes the next digit (`digits.pop(0)`) and
emits its code from the named parity set.  Returns the element list and
the concatenated code built alongside it; `none` models a raised
`IndexError` (pop from an empty list) or `KeyError` (failed table lookup). -/
def encGo : Str → Str → Option (List Str × Str)
  | [], _ => some ([], [])
  | s :: ss, digits =>
    if s = 'n' ∨ s = 'c' then
      let e := if s = 'n' then normalG else centralG
      match encGo ss digits with
      | none => none
      | some r => some (e :: r.1, e ++ r.2)
    else
      match digits with
      | [] => none
      | d :: ds =>
        match elemCode s d with
        | none => none
        | some e =>
          match encGo ss ds with
          | none => none
          | some r => some (e :: r.1, e ++ r.2)

/-- `EAN13._encode`: pop the first digit of `id` to select the structure
template, then read the template.  Returns `(elements, code, structure)`. -/
def encodeE (id : Str) : Option (List Str × Str × Str) :=
  match id with
  | [] => none
  | first :: digits =>
    match structureOf first with
    | none => none
    | some st =>
      match encGo st digits with
      | none => none
      | some r => some (r.1, r.2, st)

/-! ## Checksum and construction (`EAN13._compute_checksum`, `EAN13.__init__`) -/

/-- The comprehension `[int(c) for c in s]`; `none` models the `ValueError`
raised by `int` on a non-digit character. -/
def intList : Str → Option (List Nat)
  | [] => some []
  | c :: cs =>
    match charDigit c with
    | none => none
    | some v =>
      match intList cs with
      | none => none
      | some vs => some (v :: vs)

/-- `EAN13._compute_checksum` (src/main.py lines 371-380): digit values of
`id[0:12]`, odds at the even 0-based positions, evens at the odd 0-based
positions, weighted sum `3*sum(evens) + sum(odds)`, result
`str((10 - weighted % 10) % 10)`. -/
def computeChecksum (id : Str) : Option Char :=
  match intList (id.take 12) with
  | none => none
  | some ds =>
    let hln := ds.length / 2
    let odds := (List.range hln).map fun i => ds.getD (2 * i) 0
    let evens := (List.range hln).map fun i => ds.getD (2 * i + 1) 0
    some (natDigitChar ((10 - (3 * evens.sum + odds.sum) % 10) % 10))

/-- `EAN13Data.length`. -/
def EANlength : Nat := 13

/-- Python `str.zfill`: pad with zeros on the left up to width `w`
(sign handling is irrelevant here, all inputs of interest are digit
strings or non-negative numbers). -/
def zfill (s : Str) (w : Nat) : Str := List.replicate (w - s.length) '0' ++ s

/-- `EAN13.__init__` up to (and excluding) `_encode`: zero-fill the input
to 12 characters, compute the checksum of the first 12 characters, append
it when the string is still shorter than 13 characters, otherwise compare
it with the final character.  Returns the stored `id` and `checksum`;
`none` models the raised `ValueError` (wrong checksum, or a non-digit among
the first 12 characters). -/
def EAN13init (s : Str) : Option (Str × Char) :=
  let id := zfill s (EANlength - 1)
  match computeChecksum id with
  | none => none
  | some cs =>
    if id.length < EANlength then some (id ++ [cs], cs)
    else if id.getLast? = some cs then some (id, cs)
    else none

/-- The data stored by a successfully constructed `EAN13` object. -/
structure EANCode where
  id : Str
  cs : Char
  elements : List Str
  code : Str
  struct : Str
deriving DecidableEq

/-- Full `EAN13` construction: `__init__` followed by `_encode`.
`none` models any exception escaping the constructor. -/
def EAN13new (s : Str) : Option EANCode :=
  match EAN13init s with
  | none => none
  | some (id, cs) =>
    match encodeE id with
    | none => none
    | some (els, code, st) => some ⟨id, cs, els, code, st⟩

/-! ## The generator (`EAN13.generate`, src/main.py lines 499-550) -/

/-- The database projection
`[ean.id[pl:-1] for ean in database if ean.id[:pl] == prefix]`:
keep the identifiers carrying the given prefix, strip the prefix and the
final checksum digit. -/
def stripDb (pfx : Str) (db : List Str) : List Str :=
  (db.filter fun id => decide (id.take pfx.length = pfx)).map
    fun id => (id.drop pfx.length).dropLast

/-- `EAN13.generate` with the drawn random suffix `rand` made an explicit
argument (the source draws it uniformly at random).  While the candidate
suffix is in the projected database, step through `loop_round(rand)` (whose
first yield is `rand` itself); build the EAN-13 code from the first free
candidate.  The outer `none` models the database-is-full exception
raised when the bounded walk is exhausted; the inner option is the result
of the final `EAN13` construction. -/
def generate (pfx : Str) (db : List Str) (rand : Str) : Option (Option EANCode) :=
  let database := stripDb pfx db
  if rand ∈ database then
    match loopRound DEC rand none false with
    | none => none
    | some walk =>
      match walk.find? (fun r => decide (r ∉ database)) with
      | some r => some (EAN13new (pfx ++ r))
      | none => none
  else some (EAN13new (pfx ++ rand))

/-! ## Odometer value and representation (proof-side semantics)

The intended meaning of the walker: a length-`L` string over an alphabet of
`D` distinct symbols is the mixed-radix numeral (most significant symbol
first) of a value below `D^L`, and one `loopstep` yield advances that value
by one modulo `D^L`. -/

/-- Odometer value of a string over `digits` (most significant first). -/
def val (digits : Str) : Str → Nat
  | [] => 0
  | c :: rest => digits.indexOf c * digits.length ^ rest.length + val digits rest

/-- The length-`L` string over `digits` representing value `v`
(most significant first). -/
def rep (digits : Str) : Nat → Nat → Str
  | 0, _ => []
  | L + 1, v => digits.getD (v / digits.length ^ L) 'X' :: rep digits L (v % digits.length ^ L)

/-! ## Arithmetic helpers -/

/-- Division and remainder of `q * T + r` by `T` when `r < T`. -/
theorem mul_add_div_mod (T q r : Nat) (hT : 0 < T) (hr : r < T) :
    (q * T + r) / T = q ∧ (q * T + r) % T = r := by
  constructor
  · rw [Nat.add_comm, Nat.mul_comm q T, Nat.add_mul_div_left _ _ hT,
      Nat.div_eq_of_lt hr, Nat.zero_add]
  · rw [Nat.add_comm, Nat.mul_comm q T, Nat.add_mul_mod_self_left, Nat.mod_eq_of_lt hr]

/-- Remainder of `q * T + r` modulo `D * T` when `r < T`. -/
theorem mod_mul_decomp (D T q r : Nat) (hD : 0 < D) (hT : 0 < T) (hr : r < T) :
    (q * T + r) % (D * T) = q % D * T + r := by
  obtain ⟨a, b, hb, rfl⟩ : ∃ a b, b < D ∧ q = D * a + b :=
    ⟨q / D, q % D, Nat.mod_lt _ hD, (Nat.div_add_mod q D).symm⟩
  have hbmod : (D * a + b) % D = b := by
    rw [Nat.mul_add_mod, Nat.mod_eq_of_lt hb]
  rw [hbmod]
  rw [show (D * a + b) * T + r = b * T + r + D * T * a by ring, Nat.add_mul_mod_self_left]
  refine Nat.mod_eq_of_lt ?_
  calc b * T + r < b * T + T := by omega
    _ = (b + 1) * T := by ring
    _ ≤ D * T := Nat.mul_le_mul_right _ (by omega)

/-! ## Properties of the odometer value and representation -/

theorem rep_length (digits : Str) : ∀ (L v : Nat), (rep digits L v).length = L
  | 0, _ => rfl
  | L + 1, v => by simp [rep, rep_length digits L]

theorem rep_mem (digits : Str) (hD : 0 < digits.length) :
    ∀ (L v : Nat), v < digits.length ^ L → ∀ c ∈ rep digits L v, c ∈ digits := by
  intro L
  induction L with
  | zero => intro v hv c hc; simp [rep] at hc
  | succ L ih =>
    intro v hv c hc
    have hT : 0 < digits.length ^ L := pow_pos hD L
    rw [rep] at hc
    rcases List.mem_cons.mp hc with h | h
    · have hdiv : v / digits.length ^ L < digits.length := by
        rw [Nat.div_lt_iff_lt_mul hT, ← pow_succ']
        exact hv
      subst h
      rw [List.getD_eq_getElem _ _ hdiv]
      exact List.getElem_mem hdiv
    · exact ih _ (Nat.mod_lt _ hT) c h

theorem val_lt (digits : Str) : ∀ (s : Str), (∀ c ∈ s, c ∈ digits) →
    val digits s < digits.length ^ s.length := by
  intro s
  induction s with
  | nil => intro _; simp [val]
  | cons c rest ih =>
    intro hsub
    have hc : digits.indexOf c < digits.length :=
      List.indexOf_lt_length.mpr (hsub c (List.mem_cons_self c rest))
    have hr := ih fun x hx => hsub x (List.mem_cons_of_mem _ hx)
    calc val digits (c :: rest)
        = digits.indexOf c * digits.length ^ rest.length + val digits rest := rfl
      _ < digits.indexOf c * digits.length ^ rest.length + digits.length ^ rest.length := by
          omega
      _ = (digits.indexOf c + 1) * digits.length ^ rest.length := by ring
      _ ≤ digits.length * digits.length ^ rest.length :=
          Nat.mul_le_mul_right _ (by omega)
      _ = digits.length ^ (c :: rest).length := by
          rw [List.length_cons, pow_succ]; ring

theorem rep_val (digits : Str) : ∀ (s : Str), (∀ c ∈ s, c ∈ digits) →
    rep digits s.length (val digits s) = s := by
  intro s
  induction s with
  | nil => intro _; rfl
  | cons c rest ih =>
    intro hsub
    have hc : digits.indexOf c < digits.length :=
      List.indexOf_lt_length.mpr (hsub c (List.mem_cons_self c rest))
    have htsub : ∀ x ∈ rest, x ∈ digits := fun x hx => hsub x (List.mem_cons_of_mem _ hx)
    have hrest : val digits rest < digits.length ^ rest.length := val_lt digits rest htsub
    have hdm := mul_add_div_mod (digits.length ^ rest.length) (digits.indexOf c)
      (val digits rest) (pow_pos (by omega) _) hrest
    show rep digits (rest.length + 1)
        (digits.indexOf c * digits.length ^ rest.length + val digits rest) = c :: rest
    rw [rep, hdm.1, hdm.2, List.getD_eq_getElem _ _ hc, List.getElem_indexOf hc, ih htsub]

theorem rep_inj (digits : Str) (hnd : digits.Nodup) (hD : 0 < digits.length) :
    ∀ (L v w : Nat), v < digits.length ^ L → w < digits.length ^ L →
      rep digits L v = rep digits L w → v = w := by
  intro L
  induction L with
  | zero => intro v w hv hw _; simp [pow_zero] at hv hw; omega
  | succ L ih =>
    intro v w hv hw h
    have hT : 0 < digits.length ^ L := pow_pos hD L
    have hv1 : v / digits.length ^ L < digits.length := by
      rw [Nat.div_lt_iff_lt_mul hT, ← pow_succ']; exact hv
    have hw1 : w / digits.length ^ L < digits.length := by
      rw [Nat.div_lt_iff_lt_mul hT, ← pow_succ']; exact hw
    rw [rep, rep, List.getD_eq_getElem _ _ hv1, List.getD_eq_getElem _ _ hw1] at h
    injection h with h1 h2
    have hdiv : v / digits.length ^ L = w / digits.length ^ L :=
      (hnd.getElem_inj_iff).mp h1
    have hmod : v % digits.length ^ L = w % digits.length ^ L :=
      ih _ _ (Nat.mod_lt _ hT) (Nat.mod_lt _ hT) h2
    rw [← Nat.div_add_mod v (digits.length ^ L), ← Nat.div_add_mod w (digits.length ^ L),
      hdiv, hmod]

theorem isAllLast_rep (digits : Str) (hnd : digits.Nodup) (hD : 0 < digits.length) :
    ∀ (L v : Nat), v < digits.length ^ L →
      (isAllLast digits (rep digits L v) = true ↔ v = digits.length ^ L - 1) := by
  intro L
  induction L with
  | zero =>
    intro v hv
    simp only [pow_zero] at hv ⊢
    simp [rep, isAllLast]
    omega
  | succ L ih =>
    intro v hv
    have hT : 0 < digits.length ^ L := pow_pos hD L
    have hv1 : v / digits.length ^ L < digits.length := by
      rw [Nat.div_lt_iff_lt_mul hT, ← pow_succ']; exact hv
    have hlast : digits.getLast? = some digits[digits.length - 1] := by
      rw [List.getLast?_eq_getElem?, List.getElem?_eq_getElem (by omega)]
    have htail := ih (v % digits.length ^ L) (Nat.mod_lt _ hT)
    rw [isAllLast] at htail
    have hhead : (decide
        (digits.getLast? = some (digits.getD (v / digits.length ^ L) 'X')) = true)
        ↔ v / digits.length ^ L = digits.length - 1 := by
      rw [decide_eq_true_eq, hlast, List.getD_eq_getElem _ _ hv1, Option.some_inj,
        hnd.getElem_inj_iff]
      exact eq_comm
    rw [rep, isAllLast, List.all_cons, Bool.and_eq_true, hhead, htail]
    constructor
    · rintro ⟨h1, h2⟩
      have hvdm := Nat.div_add_mod v (digits.length ^ L)
      rw [h1, h2] at hvdm
      obtain ⟨dd, hD1⟩ : ∃ dd, digits.length = dd + 1 := ⟨digits.length - 1, by omega⟩
      rw [pow_succ, hD1]
      rw [hD1] at hvdm
      simp only [Nat.add_sub_cancel] at hvdm
      have ht0 : 0 < (dd + 1) ^ L := pow_pos (by omega) L
      have hlin : (dd + 1) ^ L * (dd + 1) = (dd + 1) ^ L * dd + (dd + 1) ^ L := by ring
      omega
    · rintro rfl
      obtain ⟨dd, hD1⟩ : ∃ dd, digits.length = dd + 1 := ⟨digits.length - 1, by omega⟩
      have hsplit : digits.length ^ (L + 1) - 1
          = dd * digits.length ^ L + (digits.length ^ L - 1) := by
        rw [pow_succ, hD1]
        have ht0 : 0 < (dd + 1) ^ L := pow_pos (by omega) L
        have hlin : (dd + 1) ^ L * (dd + 1) = dd * (dd + 1) ^ L + (dd + 1) ^ L := by ring
        omega
      have hdm := mul_add_div_mod (digits.length ^ L) dd (digits.length ^ L - 1) hT (by omega)
      rw [hsplit, hdm.1, hdm.2]
      refine ⟨by omega, rfl⟩

theorem loopstepF_single (digits : Str) (fuel : Nat) (d : Char) (n : Nat) :
    loopstepF digits fuel [d] n =
      rep digits 1 ((val digits [d] + n) % digits.length ^ 1) := by
  have hv : val digits [d] = digits.indexOf d := by simp [val]
  cases fuel <;>
    simp [loopstepF, rep, cyc, hv, pow_one, pow_zero, Nat.div_one, Nat.mod_one]

theorem val_replicate_head (h0 : Char) (dtl : Str) : ∀ (m : Nat),
    val (h0 :: dtl) (List.replicate m h0) = 0
  | 0 => rfl
  | m + 1 => by
    simp [List.replicate, val, val_replicate_head h0 dtl m, List.indexOf_cons_self]


theorem loopstepF_eq (digits : Str) (hnd : digits.Nodup) :
    ∀ (fuel : Nat) (start : Str), start ≠ [] → start.length ≤ fuel + 1 →
      (∀ c ∈ start, c ∈ digits) → ∀ n,
      loopstepF digits fuel start n =
        rep digits start.length ((val digits start + n) % digits.length ^ start.length) := by
  intro fuel
  induction fuel with
  | zero =>
    intro start hne hlen hsub n
    rcases start with _ | ⟨d, rest⟩
    · exact absurd rfl hne
    rcases rest with _ | ⟨e, ts⟩
    · exact loopstepF_single digits 0 d n
    · simp [List.length_cons] at hlen
  | succ k ih =>
    intro start hne hlen hsub n
    rcases start with _ | ⟨d, rest⟩
    · exact absurd rfl hne
    rcases rest with _ | ⟨e, ts⟩
    · exact loopstepF_single digits (k + 1) d n
    have hd : d ∈ digits := hsub d (List.mem_cons_self _ _)
    have hD : 0 < digits.length := List.length_pos.mpr (List.ne_nil_of_mem hd)
    have hdx : digits.indexOf d < digits.length := List.indexOf_lt_length.mpr hd
    have htsub : ∀ c ∈ e :: ts, c ∈ digits := fun c hc => hsub c (List.mem_cons_of_mem _ hc)
    have htlen : (e :: ts).length ≤ k + 1 := by
      simp only [List.length_cons] at hlen ⊢; omega
    have hT : 0 < digits.length ^ (e :: ts).length := pow_pos hD _
    have hvt : val digits (e :: ts) < digits.length ^ (e :: ts).length :=
      val_lt digits _ htsub
    have ihtail : ∀ i, loopstepF digits k (e :: ts) i
        = rep digits (e :: ts).length
            ((val digits (e :: ts) + i) % digits.length ^ (e :: ts).length) :=
      fun i => ih (e :: ts) (by simp) htlen htsub i
    obtain ⟨h0, dtl, hdig⟩ : ∃ h0 dtl, digits = h0 :: dtl := by
      rcases digits with _ | ⟨h0, dtl⟩
      · simp at hD
      · exact ⟨h0, dtl, rfl⟩
    have hhd : digits.headD 'X' = h0 := by rw [hdig]; rfl
    have hh0 : h0 ∈ digits := by rw [hdig]; exact List.mem_cons_self _ _
    have hzsub : ∀ c ∈ List.replicate (e :: ts).length (digits.headD 'X'), c ∈ digits := by
      intro c hc
      rw [List.mem_replicate] at hc
      rw [hc.2, hhd]; exact hh0
    have hzlen : (List.replicate (e :: ts).length (digits.headD 'X')).length ≤ k + 1 := by
      simpa using htlen
    have hzne : List.replicate (e :: ts).length (digits.headD 'X') ≠ [] := by
      simp [List.length_cons]
    have hzval : val digits (List.replicate (e :: ts).length (digits.headD 'X')) = 0 := by
      rw [hhd, hdig]; exact val_replicate_head h0 dtl _
    have ihzero : ∀ j, loopstepF digits k (List.replicate (e :: ts).length (digits.headD 'X')) j
        = rep digits (e :: ts).length (j % digits.length ^ (e :: ts).length) := by
      intro j
      have h := ih _ hzne hzlen hzsub j
      rwa [hzval, List.length_replicate, Nat.zero_add] at h
    have hfind1 : (List.range (digits.length ^ (e :: ts).length)).find?
        (fun i => isAllLast digits (loopstepF digits k (e :: ts) i))
        = some (digits.length ^ (e :: ts).length - 1 - val digits (e :: ts)) := by
      rw [List.find?_eq_some_iff_getElem]
      refine ⟨?_, digits.length ^ (e :: ts).length - 1 - val digits (e :: ts),
        by simpa using (by omega :
          digits.length ^ (e :: ts).length - 1 - val digits (e :: ts)
            < digits.length ^ (e :: ts).length), ?_, ?_⟩
      · rw [ihtail]
        rw [show val digits (e :: ts)
              + (digits.length ^ (e :: ts).length - 1 - val digits (e :: ts))
            = digits.length ^ (e :: ts).length - 1 by omega]
        rw [Nat.mod_eq_of_lt (by omega)]
        exact (isAllLast_rep digits hnd hD _ _ (by omega)).mpr rfl
      · rw [List.getElem_range]
      · intro j hj
        rw [List.getElem_range]
        rw [Bool.not_eq_true']
        rw [ihtail, Nat.mod_eq_of_lt (by omega)]
        refine Bool.eq_false_iff.mpr fun hcon => ?_
        have := (isAllLast_rep digits hnd hD _ _ (by omega)).mp hcon
        omega
    by_cases hn : n < digits.length ^ (e :: ts).length - 1 - val digits (e :: ts) + 1
    · rw [loopstepF, hfind1]
      simp only []
      rw [if_pos hn]
      rw [ihtail n]
      have hvn : val digits (e :: ts) + n < digits.length ^ (e :: ts).length := by omega
      rw [Nat.mod_eq_of_lt hvn]
      have hvalc : val digits (d :: e :: ts)
          = digits.indexOf d * digits.length ^ (e :: ts).length + val digits (e :: ts) := rfl
      have hW : val digits (d :: e :: ts) + n
          = digits.indexOf d * digits.length ^ (e :: ts).length
            + (val digits (e :: ts) + n) := by
        rw [hvalc]; omega
      have hpow : digits.length ^ (d :: e :: ts).length
          = digits.length * digits.length ^ (e :: ts).length := by
        simp [List.length_cons, pow_succ']
      have hWlt : digits.indexOf d * digits.length ^ (e :: ts).length
            + (val digits (e :: ts) + n)
          < digits.length ^ (d :: e :: ts).length := by
        rw [hpow]
        calc digits.indexOf d * digits.length ^ (e :: ts).length
              + (val digits (e :: ts) + n)
            < digits.indexOf d * digits.length ^ (e :: ts).length
              + digits.length ^ (e :: ts).length := by omega
          _ = (digits.indexOf d + 1) * digits.length ^ (e :: ts).length := by ring
          _ ≤ digits.length * digits.length ^ (e :: ts).length :=
              Nat.mul_le_mul_right _ (by omega)
      rw [hW, Nat.mod_eq_of_lt hWlt]
      have hdm := mul_add_div_mod (digits.length ^ (e :: ts).length)
        (digits.indexOf d) (val digits (e :: ts) + n) hT hvn
      show _ = rep digits ((e :: ts).length + 1) _
      rw [rep, hdm.1, hdm.2]
      congr 1
      rw [cyc, Nat.add_zero, Nat.mod_eq_of_lt hdx]
    · have hfind2 : (List.range (digits.length ^ (e :: ts).length)).find?
          (fun j => isAllLast digits
            (loopstepF digits k (List.replicate (e :: ts).length (digits.headD 'X')) j))
          = some (digits.length ^ (e :: ts).length - 1) := by
        rw [List.find?_eq_some_iff_getElem]
        refine ⟨?_, digits.length ^ (e :: ts).length - 1,
          by simpa using (by omega :
            digits.length ^ (e :: ts).length - 1 < digits.length ^ (e :: ts).length), ?_, ?_⟩
        · rw [ihzero, Nat.mod_eq_of_lt (by omega)]
          exact (isAllLast_rep digits hnd hD _ _ (by omega)).mpr rfl
        · rw [List.getElem_range]
        · intro j hj
          rw [List.getElem_range]
          rw [Bool.not_eq_true']
          rw [ihzero, Nat.mod_eq_of_lt (by omega)]
          refine Bool.eq_false_iff.mpr fun hcon => ?_
          have := (isAllLast_rep digits hnd hD _ _ (by omega)).mp hcon
          omega
      rw [loopstepF, hfind1]
      simp only []
      rw [if_neg hn, hfind2]
      simp only []
      obtain ⟨a, b, hb, hab⟩ : ∃ a b, b < digits.length ^ (e :: ts).length ∧
          n - (digits.length ^ (e :: ts).length - 1 - val digits (e :: ts) + 1)
            = digits.length ^ (e :: ts).length * a + b :=
        ⟨_ / digits.length ^ (e :: ts).length, _ % digits.length ^ (e :: ts).length,
          Nat.mod_lt _ hT, (Nat.div_add_mod _ _).symm⟩
      have hdm0 := mul_add_div_mod (digits.length ^ (e :: ts).length) a b hT hb
      have hdiv : (n - (digits.length ^ (e :: ts).length - 1 - val digits (e :: ts) + 1))
          / (digits.length ^ (e :: ts).length - 1 + 1) = a := by
        rw [show digits.length ^ (e :: ts).length - 1 + 1
            = digits.length ^ (e :: ts).length by omega, hab]
        rw [show digits.length ^ (e :: ts).length * a + b
            = a * digits.length ^ (e :: ts).length + b by ring]
        exact hdm0.1
      have hmod : (n - (digits.length ^ (e :: ts).length - 1 - val digits (e :: ts) + 1))
          % (digits.length ^ (e :: ts).length - 1 + 1) = b := by
        rw [show digits.length ^ (e :: ts).length - 1 + 1
            = digits.length ^ (e :: ts).length by omega, hab]
        rw [show digits.length ^ (e :: ts).length * a + b
            = a * digits.length ^ (e :: ts).length + b by ring]
        exact hdm0.2
      rw [hdiv, hmod, ihzero, Nat.mod_eq_of_lt hb]
      have hvalc : val digits (d :: e :: ts)
          = digits.indexOf d * digits.length ^ (e :: ts).length + val digits (e :: ts) := rfl
      have hW : val digits (d :: e :: ts) + n
          = (digits.indexOf d + 1 + a) * digits.length ^ (e :: ts).length + b := by
        rw [hvalc]
        have hexp : (digits.indexOf d + 1 + a) * digits.length ^ (e :: ts).length
            = digits.indexOf d * digits.length ^ (e :: ts).length
              + digits.length ^ (e :: ts).length
              + a * digits.length ^ (e :: ts).length := by ring
        have hexp2 : digits.length ^ (e :: ts).length * a
            = a * digits.length ^ (e :: ts).length := by ring
        rw [hexp2] at hab
        omega
      have hmodmul := mod_mul_decomp digits.length (digits.length ^ (e :: ts).length)
        (digits.indexOf d + 1 + a) b hD hT hb
      rw [hW]
      rw [show digits.length ^ (d :: e :: ts).length
          = digits.length * digits.length ^ (e :: ts).length from by
            simp [List.length_cons, pow_succ']]
      rw [hmodmul]
      have hdm2 := mul_add_div_mod (digits.length ^ (e :: ts).length)
        ((digits.indexOf d + 1 + a) % digits.length) b hT hb
      show _ = rep digits ((e :: ts).length + 1) _
      rw [rep, hdm2.1, hdm2.2]
      congr 1
      rw [cyc]
      congr 2
      omega

theorem loopstep_eq (digits start : Str) (hnd : digits.Nodup) (hne : start ≠ [])
    (hsub : ∀ c ∈ start, c ∈ digits) (n : Nat) :
    loopstep digits start n =
      rep digits start.length ((val digits start + n) % digits.length ^ start.length) :=
  loopstepF_eq digits hnd start.length start hne (by omega) hsub n



theorem loopRound_default (digits start : Str) (hnd : digits.Nodup) (hne : start ≠ [])
    (hsub : ∀ c ∈ start, c ∈ digits) (il : Bool) :
    loopRound digits start none il =
      some ((List.range (digits.length ^ start.length)).map (loopstep digits start)
        ++ if il then [start] else []) := by
  have hD : 0 < digits.length := by
    rcases start with _ | ⟨c, r⟩
    · exact absurd rfl hne
    · exact List.length_pos.mpr (List.ne_nil_of_mem (hsub c (List.mem_cons_self _ _)))
  have hT : 0 < digits.length ^ start.length := pow_pos hD _
  have hv : val digits start < digits.length ^ start.length := val_lt digits start hsub
  have hrepval : rep digits start.length (val digits start) = start :=
    rep_val digits start hsub
  have hiff : ∀ n, loopstep digits start n = start ↔
      n % digits.length ^ start.length = 0 := by
    intro n
    rw [loopstep_eq digits start hnd hne hsub n]
    constructor
    · intro h
      have hmeq := rep_inj digits hnd hD start.length _ _
        (Nat.mod_lt _ hT) hv (h.trans hrepval.symm)
      have hmodeq : (val digits start + n) % digits.length ^ start.length
          = (val digits start + 0) % digits.length ^ start.length := by
        rw [Nat.add_zero, hmeq, Nat.mod_eq_of_lt hv]
      have := Nat.ModEq.add_left_cancel' (val digits start) hmodeq
      simpa [Nat.ModEq] using this
    · intro h
      rw [Nat.add_mod, h, Nat.add_zero, Nat.mod_mod_of_dvd, Nat.mod_eq_of_lt hv]
      exact hrepval
      exact dvd_refl _
  have hfind : (List.range' 1 (digits.length ^ start.length)).find?
      (fun n => decide (loopstep digits start n = start))
      = some (digits.length ^ start.length) := by
    rw [List.find?_eq_some_iff_getElem]
    refine ⟨?_, digits.length ^ start.length - 1,
      by simpa using (by omega : digits.length ^ start.length - 1
        < digits.length ^ start.length), ?_, ?_⟩
    · exact decide_eq_true ((hiff _).mpr (Nat.mod_self _))
    · rw [List.getElem_range'_1]; omega
    · intro j hj
      rw [List.getElem_range'_1, Bool.not_eq_true']
      refine decide_eq_false fun hcon => ?_
      have := (hiff _).mp hcon
      rw [Nat.mod_eq_of_lt (by omega)] at this
      omega
  rw [loopRound]
  rw [hfind]

/-- Walk theorem core: the bounded walk with default stop is defined, starts
at `start`, lists the whole odometer cycle in order, and recurs to `start`
only at the end. -/
theorem walk_round_cycle (digits start : Str) (hnd : digits.Nodup) (hne : start ≠ [])
    (hsub : ∀ c ∈ start, c ∈ digits) (il : Bool) :
    ∃ l, loopRound digits start none il = some l ∧
      l.length = digits.length ^ start.length + (if il then 1 else 0) ∧
      l[0]? = some start ∧
      (∀ i, i < digits.length ^ start.length →
        l[i]? = some (rep digits start.length
          ((val digits start + i) % digits.length ^ start.length))) ∧
      (l.take (digits.length ^ start.length)).Nodup ∧
      (∀ s : Str, s.length = start.length → (∀ c ∈ s, c ∈ digits) →
        s ∈ l.take (digits.length ^ start.length)) ∧
      (il = true → l.getLast? = some start) := by
  have hD : 0 < digits.length := by
    rcases start with _ | ⟨c, r⟩
    · exact absurd rfl hne
    · exact List.length_pos.mpr (List.ne_nil_of_mem (hsub c (List.mem_cons_self _ _)))
  have hT : 0 < digits.length ^ start.length := pow_pos hD _
  have hv : val digits start < digits.length ^ start.length := val_lt digits start hsub
  refine ⟨_, loopRound_default digits start hnd hne hsub il, ?_, ?_, ?_, ?_, ?_, ?_⟩
  · cases il <;> simp
  · rw [List.getElem?_append, if_pos (by simpa using hT), List.getElem?_map,
      List.getElem?_range hT, Option.map_some']
    rw [loopstep_eq digits start hnd hne hsub 0, Nat.add_zero, Nat.mod_eq_of_lt hv,
      rep_val digits start hsub]
  · intro i hi
    rw [List.getElem?_append, if_pos (by simpa using hi), List.getElem?_map,
      List.getElem?_range hi, Option.map_some']
    rw [loopstep_eq digits start hnd hne hsub i]
  · rw [List.take_left' (by simp)]
    refine List.Nodup.map_on ?_ (List.nodup_range _)
    intro i hi j hj hij
    rw [List.mem_range] at hi hj
    rw [loopstep_eq digits start hnd hne hsub i, loopstep_eq digits start hnd hne hsub j] at hij
    have := rep_inj digits hnd hD start.length _ _ (Nat.mod_lt _ hT) (Nat.mod_lt _ hT) hij
    have h2 := Nat.ModEq.add_left_cancel' (val digits start) this
    rw [Nat.ModEq, Nat.mod_eq_of_lt hi, Nat.mod_eq_of_lt hj] at h2
    exact h2
  · intro s hslen hssub
    rw [List.take_left' (by simp)]
    rw [List.mem_map]
    have hvs : val digits s < digits.length ^ start.length := by
      have := val_lt digits s hssub
      rwa [hslen] at this
    refine ⟨(val digits s + (digits.length ^ start.length - val digits start))
        % digits.length ^ start.length, ?_, ?_⟩
    · exact List.mem_range.mpr (Nat.mod_lt _ hT)
    · rw [loopstep_eq digits start hnd hne hsub]
      rw [Nat.add_mod_mod]
      rw [show val digits start + (val digits s + (digits.length ^ start.length
          - val digits start)) = digits.length ^ start.length + val digits s by omega]
      rw [Nat.add_mod_left, Nat.mod_eq_of_lt hvs]
      rw [← hslen]
      exact rep_val digits s hssub
  · intro hil
    rw [hil, if_pos rfl]
    exact List.getLast?_concat _


theorem cyc_mem (digits : Str) (c : Char) (hc : c ∈ digits) (n : Nat) :
    cyc digits c n ∈ digits := by
  have hD : 0 < digits.length := List.length_pos.mpr (List.ne_nil_of_mem hc)
  have hlt : (digits.indexOf c + n) % digits.length < digits.length := Nat.mod_lt _ hD
  rw [cyc, List.getD_eq_getElem _ _ hlt]
  exact List.getElem_mem hlt

theorem loopstepF_inv (digits : Str) :
    ∀ (fuel : Nat) (start : Str), start.length ≤ fuel + 1 →
      (∀ c ∈ start, c ∈ digits) → ∀ n,
      (loopstepF digits fuel start n).length = start.length ∧
      ∀ c ∈ loopstepF digits fuel start n, c ∈ digits := by
  intro fuel
  induction fuel with
  | zero =>
    intro start hlen hsub n
    rcases start with _ | ⟨d, rest⟩
    · exact ⟨rfl, by simp [loopstepF]⟩
    rcases rest with _ | ⟨e, ts⟩
    · refine ⟨rfl, ?_⟩
      intro c hc
      rcases List.mem_singleton.mp hc with rfl
      exact cyc_mem digits d (hsub d (List.mem_cons_self _ _)) n
    · simp [List.length_cons] at hlen
  | succ k ih =>
    intro start hlen hsub n
    rcases start with _ | ⟨d, rest⟩
    · exact ⟨rfl, by simp [loopstepF]⟩
    rcases rest with _ | ⟨e, ts⟩
    · refine ⟨rfl, ?_⟩
      intro c hc
      rcases List.mem_singleton.mp hc with rfl
      exact cyc_mem digits d (hsub d (List.mem_cons_self _ _)) n
    have hd : d ∈ digits := hsub d (List.mem_cons_self _ _)
    have hD : 0 < digits.length := List.length_pos.mpr (List.ne_nil_of_mem hd)
    have htsub : ∀ c ∈ e :: ts, c ∈ digits := fun c hc => hsub c (List.mem_cons_of_mem _ hc)
    have htlen : (e :: ts).length ≤ k + 1 := by
      simp only [List.length_cons] at hlen ⊢; omega
    have hhd : digits.headD 'X' ∈ digits := by
      rcases digits with _ | ⟨h0, dtl⟩
      · simp at hD
      · exact List.mem_cons_self _ _
    have hzsub : ∀ c ∈ List.replicate (e :: ts).length (digits.headD 'X'), c ∈ digits := by
      intro c hc
      rw [List.mem_replicate] at hc
      rw [hc.2]; exact hhd
    have hzlen : (List.replicate (e :: ts).length (digits.headD 'X')).length ≤ k + 1 := by
      simpa using htlen
    have step : ∀ (x m : Nat) (s' : Str), s'.length = (e :: ts).length →
        s'.length ≤ k + 1 → (∀ c ∈ s', c ∈ digits) →
        ((cyc digits d x :: loopstepF digits k s' m).length = (d :: e :: ts).length ∧
          ∀ c ∈ cyc digits d x :: loopstepF digits k s' m, c ∈ digits) := by
      intro x m s' hlen' hlek hsub'
      refine ⟨?_, ?_⟩
      · rw [List.length_cons, (ih s' hlek hsub' m).1, hlen']
        simp [List.length_cons]
      · intro c hc
        rcases List.mem_cons.mp hc with rfl | hc2
        · exact cyc_mem digits d hd x
        · exact (ih s' hlek hsub' m).2 c hc2
    rw [loopstepF]
    split
    · exact step 0 n _ rfl htlen htsub
    · split
      · exact step 0 n _ rfl htlen htsub
      · split
        · exact step 1 _ _ (by simp) hzlen hzsub
        · exact step _ _ _ (by simp) hzlen hzsub

/-- C10: every string yielded by the infinite enumerator
`loopstep(start, digits)` has the same length as `start` and consists only
of characters drawn from `digits`, whenever every character of `start`
belongs to `digits`. -/
theorem c10_loopstep_yield_invariant (digits start : Str)
    (hsub : ∀ c ∈ start, c ∈ digits) (n : Nat) :
    (loopstep digits start n).length = start.length ∧
    ∀ c ∈ loopstep digits start n, c ∈ digits :=
  loopstepF_inv digits start.length start (by omega) hsub n

/-- Witness for C10 at a concrete input: the fifth yield of the walker
started at "42" over the decimal alphabet. -/
theorem c10_witness :
    (loopstep DEC ['4', '2'] 5).length = ['4', '2'].length ∧
    ∀ c ∈ loopstep DEC ['4', '2'] 5, c ∈ DEC :=
  c10_loopstep_yield_invariant DEC ['4', '2'] (by decide) 5

/-- C1 (amended: over an alphabet of `D` distinct symbols the cycle length
is `D ^ L`, not `10 ^ L`): the bounded walk `walk_round(start)` with
default stop is defined, yields `start` itself first, lists the strings in
strict odometer order (each step adds one to the odometer value modulo
`D ^ L`), visits every length-`L` string over the alphabet exactly once
(the first `D ^ L` yields are distinct and every such string occurs),
stopping just before the first recurrence of `start` after exactly
`D ^ L - 1` steps, or including the trailing recurrence of `start` after
`D ^ L` steps when `include_last` is true. -/
theorem c1_walk_round_full_cycle (digits start : Str) (hnd : digits.Nodup)
    (hne : start ≠ []) (hsub : ∀ c ∈ start, c ∈ digits) (il : Bool) :
    ∃ l, loopRound digits start none il = some l ∧
      l.length = digits.length ^ start.length + (if il then 1 else 0) ∧
      l[0]? = some start ∧
      (∀ i, i < digits.length ^ start.length →
        l[i]? = some (rep digits start.length
          ((val digits start + i) % digits.length ^ start.length))) ∧
      (l.take (digits.length ^ start.length)).Nodup ∧
      (∀ s : Str, s.length = start.length → (∀ c ∈ s, c ∈ digits) →
        s ∈ l.take (digits.length ^ start.length)) ∧
      (il = true → l.getLast? = some start) :=
  walk_round_cycle digits start hnd hne hsub il

/-- Witness for C1 at a concrete input: the walk from "ba" over "abc". -/
theorem c1_witness :
    ∃ l, loopRound ['a', 'b', 'c'] ['b', 'a'] none false = some l ∧
      l.length = ['a', 'b', 'c'].length ^ ['b', 'a'].length + (if false then 1 else 0) ∧
      l[0]? = some ['b', 'a'] ∧
      (∀ i, i < ['a', 'b', 'c'].length ^ ['b', 'a'].length →
        l[i]? = some (rep ['a', 'b', 'c'] ['b', 'a'].length
          ((val ['a', 'b', 'c'] ['b', 'a'] + i) % ['a', 'b', 'c'].length ^ ['b', 'a'].length))) ∧
      (l.take (['a', 'b', 'c'].length ^ ['b', 'a'].length)).Nodup ∧
      (∀ s : Str, s.length = ['b', 'a'].length → (∀ c ∈ s, c ∈ ['a', 'b', 'c']) →
        s ∈ l.take (['a', 'b', 'c'].length ^ ['b', 'a'].length)) ∧
      (false = true → l.getLast? = some ['b', 'a']) :=
  c1_walk_round_full_cycle ['a', 'b', 'c'] ['b', 'a'] (by decide) (by decide) (by decide) false

/-- C1 counterexample: the claim predicts, for every alphabet, a full walk
of `10 ^ L` yields (`start` plus `10 ^ L - 1` steps); over the alphabet
"abc" the walk from "ba" yields 9 strings, not `10 ^ 2`. -/
theorem c1_counterexample :
    (loopRound ['a', 'b', 'c'] ['b', 'a'] none false).map List.length = some 9 ∧
    (9 : Nat) ≠ 10 ^ 2 := by
  constructor
  · decide
  · decide


/-! ## Encoder structure lemmas -/

/-- Bar count contributed by one structure symbol: 3 for a normal guard,
5 for the central guard, 7 for a digit element. -/
def weight (s : Char) : Nat := if s = 'n' then 3 else if s = 'c' then 5 else 7

/-- Number of digit-consuming (non-guard) symbols of a structure string. -/
def ngCount (st : Str) : Nat :=
  (st.filter fun s => decide (¬(s = 'n' ∨ s = 'c'))).length

theorem elem_len : ∀ s ∈ (['A', 'B', 'C'] : Str), ∀ d ∈ DEC,
    (elemCode s d).map List.length = some 7 := by decide

theorem lookup_eq_none_keys (l : List (Char × Str)) (d : Char)
    (h : ∀ p ∈ l, p.1 ≠ d) : l.lookup d = none := by
  induction l with
  | nil => rfl
  | cons p t ih =>
    rcases p with ⟨k, v⟩
    have hne : (d == k) = false :=
      beq_eq_false_iff_ne.mpr fun he => h (k, v) (List.mem_cons_self _ _) he.symm
    simp only [List.lookup, hne]
    exact ih fun q hq => h q (List.mem_cons_of_mem _ hq)

theorem elemCode_none (s d : Char) (hd : d ∉ DEC) : elemCode s d = none := by
  have hkey : ∀ (l : List (Char × Str)), (∀ p ∈ l, p.1 ∈ DEC) → l.lookup d = none := by
    intro l hl
    exact lookup_eq_none_keys l d fun p hp he => hd (he ▸ hl p hp)
  rw [elemCode]
  split_ifs with h1 h2 h3
  · exact hkey codesA (by decide)
  · exact hkey codesB (by decide)
  · exact hkey codesC (by decide)
  · rfl

theorem encGo_spec : ∀ (st digits : Str),
    (∀ s ∈ st, s = 'n' ∨ s = 'c' ∨ s = 'A' ∨ s = 'B' ∨ s = 'C') →
    ngCount st ≤ digits.length →
    (∀ d ∈ digits.take (ngCount st), d ∈ DEC) →
    ∃ els code, encGo st digits = some (els, code) ∧
      els.length = st.length ∧
      els.flatten = code ∧
      code.length = (st.map weight).sum ∧
      (∀ i : Nat, st[i]? = some 'n' → els[i]? = some normalG) ∧
      (∀ i : Nat, st[i]? = some 'c' → els[i]? = some centralG) := by
  intro st
  induction st with
  | nil =>
    intro digits _ _ _
    refine ⟨[], [], rfl, rfl, rfl, rfl, ?_, ?_⟩
    · intro i hi; simp at hi
    · intro i hi; simp at hi
  | cons s ss ih =>
    intro digits hsym hng htake
    have hsymss : ∀ x ∈ ss, x = 'n' ∨ x = 'c' ∨ x = 'A' ∨ x = 'B' ∨ x = 'C' :=
      fun x hx => hsym x (List.mem_cons_of_mem _ hx)
    by_cases hg : s = 'n' ∨ s = 'c'
    · have hngc : ngCount (s :: ss) = ngCount ss := by
        rcases hg with rfl | rfl <;> simp [ngCount, List.filter_cons]
      rw [hngc] at hng htake
      obtain ⟨els, code, heq, hlen, hflat, hclen, hn, hc⟩ := ih digits hsymss hng htake
      simp only [encGo]
      rw [if_pos hg, heq]
      refine ⟨_, _, rfl, ?_, ?_, ?_, ?_, ?_⟩
      · simp [hlen]
      · simp [hflat]
      · rcases hg with rfl | rfl
        · simp [hclen, weight, normalG]
          omega
        · simp [hclen, weight, centralG]
          omega
      · intro i hi
        match i, hi with
        | 0, hi =>
          have : s = 'n' := by simpa using hi
          subst this
          simp
        | i + 1, hi =>
          have := hn i (by simpa using hi)
          simpa using this
      · intro i hi
        match i, hi with
        | 0, hi =>
          have hsn : s = 'c' := by simpa using hi
          subst hsn
          rcases hg with hg1 | hg1
          · exact absurd hg1 (by decide)
          · simp
        | i + 1, hi =>
          have := hc i (by simpa using hi)
          simpa using this
    · have hs3 : s = 'A' ∨ s = 'B' ∨ s = 'C' := by
        rcases hsym s (List.mem_cons_self _ _) with h | h | h | h | h
        · exact absurd (Or.inl h) hg
        · exact absurd (Or.inr h) hg
        · exact Or.inl h
        · exact Or.inr (Or.inl h)
        · exact Or.inr (Or.inr h)
      have hngc : ngCount (s :: ss) = ngCount ss + 1 := by
        rcases hs3 with rfl | rfl | rfl <;> simp [ngCount, List.filter_cons]
      rw [hngc] at hng htake
      rcases digits with _ | ⟨d, ds⟩
      · simp at hng
      have hd : d ∈ DEC := htake d (by
        rw [List.take_succ_cons]
        exact List.mem_cons_self _ _)
      have htake' : ∀ x ∈ ds.take (ngCount ss), x ∈ DEC := by
        intro x hx
        refine htake x ?_
        rw [List.take_succ_cons]
        exact List.mem_cons_of_mem _ hx
      have hng' : ngCount ss ≤ ds.length := by
        simp only [List.length_cons] at hng; omega
      have hmem : s ∈ (['A', 'B', 'C'] : Str) := by
        rcases hs3 with rfl | rfl | rfl <;> decide
      have he7 := elem_len s hmem d hd
      rw [Option.map_eq_some'] at he7
      obtain ⟨e, hee, helen⟩ := he7
      obtain ⟨els, code, heq, hlen, hflat, hclen, hn, hc⟩ := ih ds hsymss hng' htake'
      simp only [encGo]
      rw [if_neg hg, hee, heq]
      refine ⟨_, _, rfl, ?_, ?_, ?_, ?_, ?_⟩
      · simp [hlen]
      · simp [hflat]
      · have hw : weight s = 7 := by
          rcases hs3 with rfl | rfl | rfl <;> decide
        simp [hclen, hw, helen]
      · intro i hi
        match i, hi with
        | 0, hi =>
          have : s = 'n' := by simpa using hi
          subst this
          exact absurd (Or.inl rfl) hg
        | i + 1, hi =>
          have := hn i (by simpa using hi)
          simpa using this
      · intro i hi
        match i, hi with
        | 0, hi =>
          have : s = 'c' := by simpa using hi
          subst this
          exact absurd (Or.inr rfl) hg
        | i + 1, hi =>
          have := hc i (by simpa using hi)
          simpa using this


theorem struct_ok : ∀ c ∈ DEC, ∃ st, structureOf c = some st ∧
    (st.length = 15 ∧ ngCount st = 12 ∧ (st.map weight).sum = 95 ∧
      (∀ s ∈ st, s = 'n' ∨ s = 'c' ∨ s = 'A' ∨ s = 'B' ∨ s = 'C') ∧
      st[0]? = some 'n' ∧ st[7]? = some 'c' ∧ st[14]? = some 'n') := by
  intro c hc
  simp only [DEC, List.mem_cons, List.not_mem_nil, or_false] at hc
  rcases hc with rfl | rfl | rfl | rfl | rfl | rfl | rfl | rfl | rfl | rfl <;>
    exact ⟨_, rfl, by decide⟩

/-- Structure of a successful `_encode`: 15 elements (two normal guards,
one central guard, twelve digit elements), flattening to the 95-bar code. -/
theorem encodeE_ok (id : Str) (hlen : 13 ≤ id.length)
    (hdig : ∀ c ∈ id.take 13, c ∈ DEC) :
    ∃ els code st, encodeE id = some (els, code, st) ∧
      els.length = 15 ∧ els.flatten = code ∧ code.length = 95 ∧
      els[0]? = some normalG ∧ els[7]? = some centralG ∧ els[14]? = some normalG := by
  rcases id with _ | ⟨first, digits⟩
  · simp at hlen
  have hf : first ∈ DEC := hdig first (by
    rw [List.take_succ_cons]; exact List.mem_cons_self _ _)
  obtain ⟨st, hst, hl15, hng, hsum, hmem, h0, h7, h14⟩ := struct_ok first hf
  have hng12 : ngCount st ≤ digits.length := by
    rw [hng]
    simp only [List.length_cons] at hlen
    omega
  have htk : ∀ d ∈ digits.take (ngCount st), d ∈ DEC := by
    rw [hng]
    intro d hd
    refine hdig d ?_
    rw [List.take_succ_cons]
    exact List.mem_cons_of_mem _ hd
  obtain ⟨els, code, hgo, hel, hfl, hcl, hn, hc⟩ := encGo_spec st digits hmem hng12 htk
  refine ⟨els, code, st, ?_, ?_, hfl, ?_, ?_, ?_, ?_⟩
  · simp only [encodeE]
    rw [hst]
    simp only []
    rw [hgo]
  · rw [hel, hl15]
  · rw [hcl, hsum]
  · exact hn 0 h0
  · exact hc 7 h7
  · exact hn 14 h14

/-! ## Checksum lemmas -/

theorem intList_digits (l : Str) (h : ∀ c ∈ l, c ∈ DEC) :
    intList l = some (l.map dv) := by
  induction l with
  | nil => rfl
  | cons c cs ih =>
    have hc : c ∈ DEC := h c (List.mem_cons_self _ _)
    simp only [intList, charDigit, if_pos hc,
      ih fun x hx => h x (List.mem_cons_of_mem _ hx), List.map_cons]

theorem intList_none (l : Str) : ∀ (h : ∃ c ∈ l, c ∉ DEC), intList l = none := by
  induction l with
  | nil => rintro ⟨c, hc, _⟩; simp at hc
  | cons c cs ih =>
    rintro ⟨x, hx, hxd⟩
    by_cases hc : c ∈ DEC
    · have hxcs : x ∈ cs := by
        rcases List.mem_cons.mp hx with rfl | h2
        · exact absurd hc hxd
        · exact h2
      simp only [intList, charDigit, if_pos hc, ih ⟨x, hxcs, hxd⟩]
    · simp only [intList, charDigit, if_neg hc]

/-- The odd-position digit values (0-based positions 0, 2, ..., 10). -/
def oddsSum (P : Str) : Nat := ((List.range 6).map fun i => dv (P.getD (2 * i) '0')).sum

/-- The even-position digit values (0-based positions 1, 3, ..., 11). -/
def evensSum (P : Str) : Nat := ((List.range 6).map fun i => dv (P.getD (2 * i + 1) '0')).sum

/-- The checksum digit value of a 12-digit payload, as the specification
formula states it. -/
def csDigit (P : Str) : Nat := (10 - (3 * evensSum P + oddsSum P) % 10) % 10

theorem computeChecksum_eq (P : Str) (h12 : P.length = 12) (hd : ∀ c ∈ P, c ∈ DEC) :
    computeChecksum P = some (natDigitChar (csDigit P)) := by
  have htake : P.take 12 = P := by
    rw [← h12, List.take_length]
  rw [computeChecksum, htake, intList_digits P hd]
  simp only []
  have hlenm : (P.map dv).length / 2 = 6 := by
    rw [List.length_map, h12]
  rw [hlenm]
  have hodds : (List.range 6).map (fun i => (P.map dv).getD (2 * i) 0)
      = (List.range 6).map fun i => dv (P.getD (2 * i) '0') := by
    refine List.map_congr_left ?_
    intro i hi
    rw [List.mem_range] at hi
    have h2i : 2 * i < P.length := by omega
    rw [List.getD_eq_getElem _ _ (by rw [List.length_map]; exact h2i),
      List.getElem_map, List.getD_eq_getElem _ _ h2i]
  have hevens : (List.range 6).map (fun i => (P.map dv).getD (2 * i + 1) 0)
      = (List.range 6).map fun i => dv (P.getD (2 * i + 1) '0') := by
    refine List.map_congr_left ?_
    intro i hi
    rw [List.mem_range] at hi
    have h2i : 2 * i + 1 < P.length := by omega
    rw [List.getD_eq_getElem _ _ (by rw [List.length_map]; exact h2i),
      List.getElem_map, List.getD_eq_getElem _ _ h2i]
  rw [hodds, hevens]
  rfl

theorem csDigit_lt (P : Str) : csDigit P < 10 :=
  Nat.mod_lt _ (by omega)

theorem natDigitChar_mem : ∀ n, n < 10 → natDigitChar n ∈ DEC := by decide


/-! ## Constructor lemmas -/

theorem zfill_noop (s : Str) (h : 12 ≤ s.length) : zfill s 12 = s := by
  rw [zfill, Nat.sub_eq_zero_of_le h]
  rfl

theorem computeChecksum_take (P : Str) (h12 : 12 ≤ P.length)
    (hd : ∀ c ∈ P.take 12, c ∈ DEC) :
    computeChecksum P = some (natDigitChar (csDigit (P.take 12))) := by
  have hQ : (P.take 12).length = 12 := by rw [List.length_take]; omega
  have h := computeChecksum_eq (P.take 12) hQ hd
  rw [computeChecksum] at h ⊢
  rwa [List.take_take, Nat.min_self] at h

theorem EAN13init_payload (P : Str) (h12 : P.length = 12) (hd : ∀ c ∈ P, c ∈ DEC) :
    EAN13init P = some (P ++ [natDigitChar (csDigit P)], natDigitChar (csDigit P)) := by
  have hz : zfill P (EANlength - 1) = P := zfill_noop P (by omega)
  rw [EAN13init]
  rw [hz, computeChecksum_eq P h12 hd]
  simp only []
  rw [if_pos (by rw [h12]; decide)]

theorem EAN13init_long (s : Str) (h13 : 13 ≤ s.length)
    (hd : ∀ c ∈ s.take 12, c ∈ DEC) :
    EAN13init s = if s.getLast? = some (natDigitChar (csDigit (s.take 12)))
      then some (s, natDigitChar (csDigit (s.take 12))) else none := by
  have hz : zfill s (EANlength - 1) = s := zfill_noop s (by omega)
  rw [EAN13init]
  rw [hz, computeChecksum_take s (by omega) hd]
  simp only []
  rw [if_neg (by rw [EANlength]; omega)]

set_option maxHeartbeats 1000000 in
theorem EAN13new_payload (P : Str) (h12 : P.length = 12) (hd : ∀ c ∈ P, c ∈ DEC) :
    ∃ obj, EAN13new P = some obj ∧
      obj.id = P ++ [natDigitChar (csDigit P)] ∧
      obj.cs = natDigitChar (csDigit P) ∧
      obj.elements.length = 15 ∧ obj.elements.flatten = obj.code ∧
      obj.code.length = 95 := by
  have hcs : natDigitChar (csDigit P) ∈ DEC := natDigitChar_mem _ (csDigit_lt P)
  have hidlen : 13 ≤ (P ++ [natDigitChar (csDigit P)]).length := by
    simp only [List.length_append, List.length_cons, List.length_nil, h12]
    omega
  have hiddig : ∀ c ∈ (P ++ [natDigitChar (csDigit P)]).take 13, c ∈ DEC := by
    intro c hc
    have hc2 : c ∈ P ++ [natDigitChar (csDigit P)] := List.mem_of_mem_take hc
    rcases List.mem_append.mp hc2 with h | h
    · exact hd c h
    · rcases List.mem_singleton.mp h with rfl
      exact hcs
  obtain ⟨els, code, st, henc, h15, hfl, h95, _, _, _⟩ := encodeE_ok _ hidlen hiddig
  refine ⟨⟨_, _, els, code, st⟩, ?_, rfl, rfl, h15, hfl, h95⟩
  rw [EAN13new, EAN13init_payload P h12 hd]
  simp only []
  rw [henc]
  rfl

/-! ## Claims C2, C5, C6, C8, C9 -/

/-- C2: for every 12-digit payload, the checksum function returns exactly
the digit character of `(10 - (3*sum(evens) + sum(odds)) mod 10) mod 10`
with the odds at 0-based positions 0, 2, ..., 10 and the evens at 1, 3,
..., 11, and the result is always a single decimal digit (never 10). -/
theorem c2_checksum_formula (P : Str) (h12 : P.length = 12) (hd : ∀ c ∈ P, c ∈ DEC) :
    computeChecksum P
      = some (natDigitChar ((10 - (3 * evensSum P + oddsSum P) % 10) % 10)) ∧
    (10 - (3 * evensSum P + oddsSum P) % 10) % 10 < 10 ∧
    natDigitChar ((10 - (3 * evensSum P + oddsSum P) % 10) % 10) ∈ DEC :=
  ⟨computeChecksum_eq P h12 hd, csDigit_lt P, natDigitChar_mem _ (csDigit_lt P)⟩

/-- Witness for C2 at the source doctest payload "041259863013". -/
theorem c2_witness :
    computeChecksum ['0', '4', '1', '2', '5', '9', '8', '6', '3', '0', '1', '3']
      = some (natDigitChar ((10 - (3 * evensSum ['0', '4', '1', '2', '5', '9', '8', '6', '3', '0', '1', '3']
          + oddsSum ['0', '4', '1', '2', '5', '9', '8', '6', '3', '0', '1', '3']) % 10) % 10)) ∧
    (10 - (3 * evensSum ['0', '4', '1', '2', '5', '9', '8', '6', '3', '0', '1', '3']
      + oddsSum ['0', '4', '1', '2', '5', '9', '8', '6', '3', '0', '1', '3']) % 10) % 10 < 10 ∧
    natDigitChar ((10 - (3 * evensSum ['0', '4', '1', '2', '5', '9', '8', '6', '3', '0', '1', '3']
      + oddsSum ['0', '4', '1', '2', '5', '9', '8', '6', '3', '0', '1', '3']) % 10) % 10) ∈ DEC :=
  c2_checksum_formula ['0', '4', '1', '2', '5', '9', '8', '6', '3', '0', '1', '3']
    (by decide) (by decide)

/-- C5 (amended: a successful encode emits 15 element sub-sequences — two
normal guards, one central guard and twelve digit elements — not 14): for
every valid 13-digit identifier the element list has exactly 15 entries,
its guards sit at positions 0, 7 and 14, its concatenation equals the full
bit sequence, and the full bit sequence has exactly 95 bars. -/
theorem c5_encode_structure (id : Str) (h13 : id.length = 13)
    (hd : ∀ c ∈ id, c ∈ DEC) :
    ∃ els code st, encodeE id = some (els, code, st) ∧
      els.length = 15 ∧
      els[0]? = some normalG ∧ els[7]? = some centralG ∧ els[14]? = some normalG ∧
      els.flatten = code ∧ code.length = 95 := by
  obtain ⟨els, code, st, h, h15, hfl, h95, h0, h7, h14⟩ :=
    encodeE_ok id (by omega) fun c hc => hd c (List.mem_of_mem_take hc)
  exact ⟨els, code, st, h, h15, h0, h7, h14, hfl, h95⟩

/-- Witness for C5 at the identifier 9782940199617 from the source doctest. -/
theorem c5_witness :
    ∃ els code st, encodeE ['9', '7', '8', '2', '9', '4', '0', '1', '9', '9', '6', '1', '7']
        = some (els, code, st) ∧
      els.length = 15 ∧
      els[0]? = some normalG ∧ els[7]? = some centralG ∧ els[14]? = some normalG ∧
      els.flatten = code ∧ code.length = 95 :=
  c5_encode_structure ['9', '7', '8', '2', '9', '4', '0', '1', '9', '9', '6', '1', '7']
    (by decide) (by decide)

/-- C5 counterexample: the encoder emits 15 element sub-sequences for the
valid identifier 9782940199617, not 14 as the claim states. -/
theorem c5_counterexample :
    (encodeE ['9', '7', '8', '2', '9', '4', '0', '1', '9', '9', '6', '1', '7']).map
      (fun r => r.1.length) = some 15 ∧ (15 : Nat) ≠ 14 :=
  ⟨by decide, by decide⟩

/-- C6 (amended: the checksum of 041259863011 is '6', not '0'; the second
value is as the claim states): the checksum of 041259863011 is the
digit '6' and the checksum of 978294019961 is the digit '7'. -/
theorem c6_checksum_examples :
    computeChecksum ['0', '4', '1', '2', '5', '9', '8', '6', '3', '0', '1', '1'] = some '6' ∧
    computeChecksum ['9', '7', '8', '2', '9', '4', '0', '1', '9', '9', '6', '1'] = some '7' :=
  ⟨by decide, by decide⟩

/-- C6 counterexample: the checksum of "041259863011" is not '0'. -/
theorem c6_counterexample :
    computeChecksum ['0', '4', '1', '2', '5', '9', '8', '6', '3', '0', '1', '1'] ≠ some '0' := by
  decide

/-- C8 (amended: `Identifier("12345")` does not raise — the input is
zero-filled to 000000012345 and the checksum 7 is appended — while
`Identifier("9782940199618")` raises because its final digit differs from
the computed checksum 7). -/
theorem c8_construction_examples :
    (EAN13new ['1', '2', '3', '4', '5']).map EANCode.id
      = some ['0', '0', '0', '0', '0', '0', '0', '1', '2', '3', '4', '5', '7'] ∧
    EAN13new ['9', '7', '8', '2', '9', '4', '0', '1', '9', '9', '6', '1', '8'] = none :=
  ⟨by decide, by decide⟩

/-- C8 counterexample: constructing an identifier from "12345" succeeds
(the claim states it raises ValidationError). -/
theorem c8_counterexample :
    (EAN13new ['1', '2', '3', '4', '5']).isSome = true := by decide

/-- C9: constructing an identifier from a 12-digit payload and then
reconstructing from the resulting 13-digit value succeeds and yields the
same object, in particular an element-wise identical full bit sequence. -/
theorem c9_roundtrip (P : Str) (h12 : P.length = 12) (hd : ∀ c ∈ P, c ∈ DEC) :
    ∃ o1 o2, EAN13new P = some o1 ∧ EAN13new o1.id = some o2 ∧
      o2.code = o1.code ∧ o2 = o1 := by
  have hcs : natDigitChar (csDigit P) ∈ DEC := natDigitChar_mem _ (csDigit_lt P)
  have hidlen : 13 ≤ (P ++ [natDigitChar (csDigit P)]).length := by
    simp only [List.length_append, List.length_cons, List.length_nil, h12]
    omega
  have htake12 : (P ++ [natDigitChar (csDigit P)]).take 12 = P := List.take_left' h12
  have hid12 : ∀ c ∈ (P ++ [natDigitChar (csDigit P)]).take 12, c ∈ DEC := by
    rw [htake12]; exact hd
  have hiddig : ∀ c ∈ (P ++ [natDigitChar (csDigit P)]).take 13, c ∈ DEC := by
    intro c hc
    have hc2 : c ∈ P ++ [natDigitChar (csDigit P)] := List.mem_of_mem_take hc
    rcases List.mem_append.mp hc2 with h | h
    · exact hd c h
    · rcases List.mem_singleton.mp h with rfl
      exact hcs
  obtain ⟨els, code, st, henc, _, _, _, _, _, _⟩ := encodeE_ok _ hidlen hiddig
  refine ⟨⟨P ++ [natDigitChar (csDigit P)], natDigitChar (csDigit P), els, code, st⟩,
    ⟨P ++ [natDigitChar (csDigit P)], natDigitChar (csDigit P), els, code, st⟩,
    ?_, ?_, rfl, rfl⟩
  · rw [EAN13new, EAN13init_payload P h12 hd]
    simp only []
    rw [henc]
  · show EAN13new (P ++ [natDigitChar (csDigit P)]) = _
    rw [EAN13new, EAN13init_long (P ++ [natDigitChar (csDigit P)]) hidlen hid12]
    rw [htake12, if_pos (List.getLast?_concat _)]
    simp only []
    rw [henc]

/-- Witness for C9 at the payload "978294019961". -/
theorem c9_witness :
    ∃ o1 o2, EAN13new ['9', '7', '8', '2', '9', '4', '0', '1', '9', '9', '6', '1'] = some o1 ∧
      EAN13new o1.id = some o2 ∧ o2.code = o1.code ∧ o2 = o1 :=
  c9_roundtrip ['9', '7', '8', '2', '9', '4', '0', '1', '9', '9', '6', '1']
    (by decide) (by decide)


/-! ## Failure characterization of construction (claim C7) -/

theorem encGo_none_of_bad : ∀ (st digits : Str) (k : Nat) (b : Char),
    (∀ s ∈ st, s = 'n' ∨ s = 'c' ∨ s = 'A' ∨ s = 'B' ∨ s = 'C') →
    k < ngCount st →
    (∀ d ∈ digits.take k, d ∈ DEC) →
    digits[k]? = some b → b ∉ DEC →
    encGo st digits = none := by
  intro st
  induction st with
  | nil =>
    intro digits k b _ hk _ _ _
    simp [ngCount] at hk
  | cons s ss ih =>
    intro digits k b hsym hk htk hkb hbd
    have hsymss : ∀ x ∈ ss, x = 'n' ∨ x = 'c' ∨ x = 'A' ∨ x = 'B' ∨ x = 'C' :=
      fun x hx => hsym x (List.mem_cons_of_mem _ hx)
    by_cases hg : s = 'n' ∨ s = 'c'
    · have hngc : ngCount (s :: ss) = ngCount ss := by
        rcases hg with rfl | rfl <;> simp [ngCount, List.filter_cons]
      simp only [encGo]
      rw [if_pos hg]
      rw [ih digits k b hsymss (hngc ▸ hk) htk hkb hbd]
    · have hs3 : s = 'A' ∨ s = 'B' ∨ s = 'C' := by
        rcases hsym s (List.mem_cons_self _ _) with h | h | h | h | h
        · exact absurd (Or.inl h) hg
        · exact absurd (Or.inr h) hg
        · exact Or.inl h
        · exact Or.inr (Or.inl h)
        · exact Or.inr (Or.inr h)
      have hngc : ngCount (s :: ss) = ngCount ss + 1 := by
        rcases hs3 with rfl | rfl | rfl <;> simp [ngCount, List.filter_cons]
      rcases digits with _ | ⟨d, ds⟩
      · simp at hkb
      simp only [encGo]
      rw [if_neg hg]
      rcases k with _ | k
      · have hdb : d = b := by simpa using hkb
        subst hdb
        rw [elemCode_none s d hbd]
      · have hd : d ∈ DEC := htk d (by
          rw [List.take_succ_cons]; exact List.mem_cons_self _ _)
        have hmem : s ∈ (['A', 'B', 'C'] : Str) := by
          rcases hs3 with rfl | rfl | rfl <;> decide
        have he7 := elem_len s hmem d hd
        rw [Option.map_eq_some'] at he7
        obtain ⟨e, hee, _⟩ := he7
        rw [hee]
        have htk' : ∀ x ∈ ds.take k, x ∈ DEC := by
          intro x hx
          refine htk x ?_
          rw [List.take_succ_cons]
          exact List.mem_cons_of_mem _ hx
        rw [ih ds k b hsymss (by omega) htk' (by simpa using hkb) hbd]

theorem zfill_ge (s : Str) : 12 ≤ (zfill s 12).length := by
  rw [zfill, List.length_append, List.length_replicate]
  omega

/-- Unfolding of `EAN13.__init__` in terms of the padded string. -/
theorem EAN13init_eq (s : Str) : EAN13init s =
    (match computeChecksum (zfill s 12) with
    | none => none
    | some cs =>
      if (zfill s 12).length < EANlength then some (zfill s 12 ++ [cs], cs)
      else if (zfill s 12).getLast? = some cs then some (zfill s 12, cs)
      else none) := rfl

theorem EAN13new_none_of_init (s : Str) (h : EAN13init s = none) :
    EAN13new s = none := by
  rw [EAN13new, h]

/-- C7 (amended): construction fails exactly when the padded input has a
non-digit among its first 12 characters, or has at least 13 characters and
its final character differs from the checksum of its first 12, or has a
non-digit at its 13th position (0-based index 12).  In particular — contrary
to the claim — an all-digit input of length 14 whose final character happens
to match the checksum of its first 12 digits constructs an Identifier. -/
theorem c7_construction_failure (s : Str) :
    EAN13new s = none ↔
      ¬ ((∀ c ∈ (zfill s 12).take 12, c ∈ DEC) ∧
         ((zfill s 12).length < 13 ∨
          ((zfill s 12).getLast? = some (natDigitChar (csDigit ((zfill s 12).take 12))) ∧
           ∃ b, (zfill s 12)[12]? = some b ∧ b ∈ DEC))) := by
  have hge := zfill_ge s
  by_cases hA : ∀ c ∈ (zfill s 12).take 12, c ∈ DEC
  · have hcks : computeChecksum (zfill s 12)
        = some (natDigitChar (csDigit ((zfill s 12).take 12))) :=
      computeChecksum_take _ hge hA
    by_cases hB : (zfill s 12).length < 13
    · -- padded length is exactly 12: construction succeeds
      have h12 : (zfill s 12).length = 12 := by omega
      have htk : (zfill s 12).take 12 = zfill s 12 :=
        List.take_of_length_le (by omega)
      have hinit : EAN13init s
          = some (zfill s 12 ++ [natDigitChar (csDigit ((zfill s 12).take 12))],
              natDigitChar (csDigit ((zfill s 12).take 12))) := by
        rw [EAN13init_eq, hcks]
        simp only []
        rw [if_pos (by rw [EANlength]; omega)]
      have hcsd : natDigitChar (csDigit ((zfill s 12).take 12)) ∈ DEC :=
        natDigitChar_mem _ (csDigit_lt _)
      have hidlen : 13 ≤ (zfill s 12
          ++ [natDigitChar (csDigit ((zfill s 12).take 12))]).length := by
        rw [List.length_append, h12]
        simp
      have hiddig : ∀ c ∈ (zfill s 12
          ++ [natDigitChar (csDigit ((zfill s 12).take 12))]).take 13, c ∈ DEC := by
        intro c hc
        have hc2 := List.mem_of_mem_take hc
        rcases List.mem_append.mp hc2 with h | h
        · exact hA c (by rw [htk]; exact h)
        · rcases List.mem_singleton.mp h with rfl
          exact hcsd
      obtain ⟨els, code, st, henc, _, _, _, _, _, _⟩ := encodeE_ok _ hidlen hiddig
      have hnew : EAN13new s ≠ none := by
        rw [EAN13new, hinit]
        simp only []
        rw [henc]
        simp
      refine iff_of_false hnew ?_
      intro hcon
      exact hcon ⟨hA, Or.inl hB⟩
    · by_cases hC : (zfill s 12).getLast?
          = some (natDigitChar (csDigit ((zfill s 12).take 12)))
      · have hinit : EAN13init s
            = some (zfill s 12, natDigitChar (csDigit ((zfill s 12).take 12))) := by
          rw [EAN13init_eq, hcks]
          simp only []
          rw [if_neg (by rw [EANlength]; omega), if_pos hC]
        have h12lt : 12 < (zfill s 12).length := by omega
        by_cases hD : ∃ b, (zfill s 12)[12]? = some b ∧ b ∈ DEC
        · -- all inspected characters are digits: construction succeeds
          obtain ⟨b, hb, hbd⟩ := hD
          have hiddig : ∀ c ∈ (zfill s 12).take 13, c ∈ DEC := by
            intro c hc
            rw [List.mem_take_iff_getElem] at hc
            obtain ⟨i, hi, rfl⟩ := hc
            have hi' : i < 13 := lt_of_lt_of_le hi (min_le_left _ _)
            by_cases hi12 : i < 12
            · refine hA _ ?_
              rw [List.mem_take_iff_getElem]
              exact ⟨i, by omega, rfl⟩
            · have hieq : i = 12 := by omega
              subst hieq
              have : (zfill s 12)[(12 : Nat)]? = some (zfill s 12)[(12 : Nat)] :=
                List.getElem?_eq_getElem (by omega)
              rw [this] at hb
              rcases Option.some_inj.mp hb with rfl
              exact hbd
          obtain ⟨els, code, st, henc, _, _, _, _, _, _⟩ :=
            encodeE_ok (zfill s 12) (by omega) hiddig
          have hnew : EAN13new s ≠ none := by
            rw [EAN13new, hinit]
            simp only []
            rw [henc]
            simp
          refine iff_of_false hnew ?_
          intro hcon
          exact hcon ⟨hA, Or.inr ⟨hC, b, hb, hbd⟩⟩
        · -- the 13th character is not a digit: _encode raises
          push_neg at hD
          obtain ⟨b, hb⟩ : ∃ b, (zfill s 12)[(12 : Nat)]? = some b :=
            ⟨_, List.getElem?_eq_getElem h12lt⟩
          have hbd : b ∉ DEC := hD b hb
          obtain ⟨first, digits, hz⟩ : ∃ first digits, zfill s 12 = first :: digits := by
            rcases hzz : zfill s 12 with _ | ⟨f, d⟩
            · rw [hzz] at h12lt; simp at h12lt
            · exact ⟨f, d, rfl⟩
          have hdlen : 11 < digits.length := by
            have h2 := h12lt
            rw [hz, List.length_cons] at h2
            omega
          have hf : first ∈ DEC := by
            refine hA first ?_
            rw [hz, show (12 : Nat) = 11 + 1 from rfl, List.take_succ_cons]
            exact List.mem_cons_self _ _
          obtain ⟨st, hst, _, hng, _, hmem, _, _, _⟩ := struct_ok first hf
          have hb' : digits[(11 : Nat)]? = some b := by
            have h2 : (first :: digits)[(12 : Nat)]? = some b := by
              rw [← hz]; exact hb
            rw [show (12 : Nat) = 11 + 1 from rfl, List.getElem?_cons_succ] at h2
            exact h2
          have htake11 : ∀ d ∈ digits.take 11, d ∈ DEC := by
            intro d hd
            refine hA d ?_
            rw [hz, show (12 : Nat) = 11 + 1 from rfl, List.take_succ_cons]
            exact List.mem_cons_of_mem _ hd
          have hgonone : encGo st digits = none :=
            encGo_none_of_bad st digits 11 b hmem (by omega) htake11 hb' hbd
          have hencnone : encodeE (zfill s 12) = none := by
            rw [hz]
            simp only [encodeE]
            rw [hst]
            simp only []
            rw [hgonone]
          have hnewnone : EAN13new s = none := by
            rw [EAN13new, hinit]
            simp only []
            rw [hencnone]
          refine iff_of_true hnewnone ?_
          rintro ⟨_, hB2 | ⟨_, b2, hb2, hb2d⟩⟩
          · exact hB hB2
          · exact hD b2 hb2 hb2d
      · have hinit : EAN13init s = none := by
          rw [EAN13init_eq, hcks]
          simp only []
          rw [if_neg (by rw [EANlength]; omega), if_neg hC]
        refine iff_of_true (EAN13new_none_of_init s hinit) ?_
        rintro ⟨_, hB2 | ⟨hC2, _⟩⟩
        · exact hB hB2
        · exact hC hC2
  · have hbad : ∃ c ∈ (zfill s 12).take 12, c ∉ DEC := by
      push_neg at hA
      exact hA
    have hcknone : computeChecksum (zfill s 12) = none := by
      rw [computeChecksum, intList_none _ hbad]
    have hinit : EAN13init s = none := by
      rw [EAN13init_eq, hcknone]
    refine iff_of_true (EAN13new_none_of_init s hinit) ?_
    rintro ⟨hA2, _⟩
    exact hA hA2


/-- C7 counterexample: an all-digit input of 14 characters — a length the
claim says must be rejected — constructs an Identifier, because its final
character matches the checksum of its first 12 characters. -/
theorem c7_counterexample :
    (List.replicate 14 '0').length ≠ 12 ∧ (List.replicate 14 '0').length ≠ 13 ∧
    (∀ c ∈ List.replicate 14 '0', c ∈ DEC) ∧
    (EAN13new (List.replicate 14 '0')).isSome = true := by decide

/-- Witness for C7 at the 14-zero input: by the amended characterization
the construction does not fail there. -/
theorem c7_witness : EAN13new (List.replicate 14 '0') ≠ none :=
  fun h => (c7_construction_failure (List.replicate 14 '0')).mp h
    ⟨by decide, Or.inr ⟨by decide, '0', by decide, by decide⟩⟩

/-! ## Generator lemmas and claims C3, C4 -/

theorem mem_stripDb (pfx : Str) (db : List Str) (x : Str) :
    x ∈ stripDb pfx db ↔
      ∃ u ∈ db, u.take pfx.length = pfx ∧ (u.drop pfx.length).dropLast = x := by
  rw [stripDb, List.mem_map]
  constructor
  · rintro ⟨u, hu, rfl⟩
    rw [List.mem_filter] at hu
    exact ⟨u, hu.1, by simpa using hu.2, rfl⟩
  · rintro ⟨u, hu, htk, hx⟩
    exact ⟨u, List.mem_filter.mpr ⟨hu, by simpa using htk⟩, hx⟩

/-- Every length-compatible digit string occurs among the first
`D ^ L` yields of the walker. -/
theorem loopstep_coverage (digits start : Str) (hnd : digits.Nodup) (hne : start ≠ [])
    (hsub : ∀ c ∈ start, c ∈ digits) (s : Str) (hsl : s.length = start.length)
    (hss : ∀ c ∈ s, c ∈ digits) :
    ∃ i, i < digits.length ^ start.length ∧ loopstep digits start i = s := by
  have hD : 0 < digits.length := by
    rcases start with _ | ⟨c, r⟩
    · exact absurd rfl hne
    · exact List.length_pos.mpr (List.ne_nil_of_mem (hsub c (List.mem_cons_self _ _)))
  have hT : 0 < digits.length ^ start.length := pow_pos hD _
  have hv : val digits start < digits.length ^ start.length := val_lt digits start hsub
  have hvs : val digits s < digits.length ^ start.length := by
    have := val_lt digits s hss
    rwa [hsl] at this
  refine ⟨(val digits s + (digits.length ^ start.length - val digits start))
      % digits.length ^ start.length, Nat.mod_lt _ hT, ?_⟩
  rw [loopstep_eq digits start hnd hne hsub]
  rw [Nat.add_mod_mod]
  rw [show val digits start + (val digits s + (digits.length ^ start.length
      - val digits start)) = digits.length ^ start.length + val digits s by omega]
  rw [Nat.add_mod_left, Nat.mod_eq_of_lt hvs]
  rw [← hsl]
  exact rep_val digits s hss

/-- Building the fresh identifier at the end of `generate`: properties of
`EAN13(prefix + r)` for a free suffix `r`. -/
theorem generate_build (pfx r : Str) (db : List Str)
    (hpl : pfx.length < 12) (hp : ∀ c ∈ pfx, c ∈ DEC)
    (hr : ∀ c ∈ r, c ∈ DEC) (hrl : r.length = 12 - pfx.length)
    (hfree : r ∉ stripDb pfx db) :
    ∃ obj, EAN13new (pfx ++ r) = some obj ∧
      obj.id.length = 13 ∧
      obj.id.take pfx.length = pfx ∧
      (∃ c, computeChecksum obj.id = some c ∧ obj.id.getLast? = some c) ∧
      ∀ u ∈ db, obj.id ≠ u := by
  have h12 : (pfx ++ r).length = 12 := by
    rw [List.length_append]; omega
  have hd : ∀ c ∈ pfx ++ r, c ∈ DEC := by
    intro c hc
    rcases List.mem_append.mp hc with h | h
    · exact hp c h
    · exact hr c h
  obtain ⟨obj, hnew, hid, hcs, _, _, _⟩ := EAN13new_payload (pfx ++ r) h12 hd
  have hidlen : obj.id.length = 13 := by
    rw [hid, List.length_append, h12]
    rfl
  have hidtake : obj.id.take pfx.length = pfx := by
    rw [hid, List.append_assoc]
    exact List.take_left' rfl
  refine ⟨obj, hnew, hidlen, hidtake, ?_, ?_⟩
  · refine ⟨natDigitChar (csDigit (pfx ++ r)), ?_, ?_⟩
    · rw [hid, computeChecksum_take _ (by rw [List.length_append, h12]; simp)
        (by rw [List.take_left' h12]; exact hd)]
      rw [List.take_left' h12]
    · rw [hid]
      exact List.getLast?_concat _
  · intro u hu heq
    refine hfree ((mem_stripDb pfx db r).mpr ⟨u, hu, ?_, ?_⟩)
    · rw [← heq]
      exact hidtake
    · rw [← heq, hid, List.append_assoc, List.drop_left' rfl, List.dropLast_concat]

/-- C3: whenever `generate(prefix, used)` returns, the returned identifier
is a 13-digit value beginning with the prefix, carrying the auto-computed
checksum as its last digit, and different from every identifier in the
used collection. -/
theorem c3_generate_success (pfx rand : Str) (db : List Str)
    (hp : ∀ c ∈ pfx, c ∈ DEC) (hpl : pfx.length < 12)
    (hr : ∀ c ∈ rand, c ∈ DEC) (hrl : rand.length = 12 - pfx.length)
    (hdb : ∀ u ∈ db, u.length = 13 ∧ ∀ c ∈ u, c ∈ DEC)
    (res : Option EANCode) (hres : generate pfx db rand = some res) :
    ∃ obj, res = some obj ∧
      obj.id.length = 13 ∧
      obj.id.take pfx.length = pfx ∧
      (∃ c, computeChecksum obj.id = some c ∧ obj.id.getLast? = some c) ∧
      ∀ u ∈ db, obj.id ≠ u := by
  rw [generate] at hres
  by_cases hin : rand ∈ stripDb pfx db
  · rw [if_pos hin] at hres
    have hne : rand ≠ [] := by
      intro h
      rw [h] at hrl
      simp only [List.length_nil] at hrl
      omega
    rw [loopRound_default DEC rand (by decide) hne hr false] at hres
    simp only [if_neg (Bool.false_ne_true), List.append_nil] at hres
    rcases hfind : (List.map (loopstep DEC rand)
        (List.range (DEC.length ^ rand.length))).find?
        (fun x => decide (x ∉ stripDb pfx db)) with _ | r
    · rw [hfind] at hres
      simp at hres
    · rw [hfind] at hres
      have hfree : r ∉ stripDb pfx db := by
        have := List.find?_some hfind
        rwa [decide_eq_true_eq] at this
      have hrmem := List.mem_of_find?_eq_some hfind
      rw [List.mem_map] at hrmem
      obtain ⟨i, _, rfl⟩ := hrmem
      have hinv : (loopstep DEC rand i).length = rand.length ∧
          ∀ c ∈ loopstep DEC rand i, c ∈ DEC :=
        loopstepF_inv DEC rand.length rand (by omega) hr i
      obtain ⟨obj, hnew, hprops⟩ := generate_build pfx _ db hpl hp hinv.2
        (by rw [hinv.1]; exact hrl) hfree
      refine ⟨obj, ?_, hprops⟩
      rw [← Option.some_inj.mp hres, hnew]
  · rw [if_neg hin] at hres
    obtain ⟨obj, hnew, hprops⟩ := generate_build pfx rand db hpl hp hr hrl hin
    refine ⟨obj, ?_, hprops⟩
    rw [← Option.some_inj.mp hres, hnew]

/-- C4: `generate(prefix, used)` fails with the exhaustion error exactly
when every one of the `10 ^ (12 - p)` possible suffixes for the prefix is
occupied in the used collection. -/
theorem c4_generate_exhaustion (pfx rand : Str) (db : List Str)
    (hp : ∀ c ∈ pfx, c ∈ DEC) (hpl : pfx.length < 12)
    (hr : ∀ c ∈ rand, c ∈ DEC) (hrl : rand.length = 12 - pfx.length) :
    generate pfx db rand = none ↔
      (∀ sfx : Str, sfx.length = 12 - pfx.length → (∀ c ∈ sfx, c ∈ DEC) →
        ∃ u ∈ db, u.take pfx.length = pfx ∧ (u.drop pfx.length).dropLast = sfx) := by
  have hne : rand ≠ [] := by
    intro h
    rw [h] at hrl
    simp only [List.length_nil] at hrl
    omega
  have hLR := loopRound_default DEC rand (by decide) hne hr false
  rw [generate]
  constructor
  · intro hnone sfx hslen hsdig
    by_cases hin : rand ∈ stripDb pfx db
    · rw [if_pos hin, hLR] at hnone
      simp only [if_neg (Bool.false_ne_true), List.append_nil] at hnone
      rcases hfind : (List.map (loopstep DEC rand)
          (List.range (DEC.length ^ rand.length))).find?
          (fun x => decide (x ∉ stripDb pfx db)) with _ | r
      · have hall := List.find?_eq_none.mp hfind
        obtain ⟨i, hi, hieq⟩ := loopstep_coverage DEC rand (by decide) hne hr sfx
          (by rw [hslen, hrl]) hsdig
        have hsfxmem : sfx ∈ (List.map (loopstep DEC rand)
            (List.range (DEC.length ^ rand.length))) := by
          rw [List.mem_map]
          exact ⟨i, List.mem_range.mpr hi, hieq⟩
        have hnp := hall sfx hsfxmem
        rw [decide_eq_true_eq] at hnp
        have hsin : sfx ∈ stripDb pfx db := not_not.mp hnp
        exact (mem_stripDb pfx db sfx).mp hsin
      · rw [hfind] at hnone
        simp at hnone
    · rw [if_neg hin] at hnone
      simp at hnone
  · intro hall
    have hin : rand ∈ stripDb pfx db :=
      (mem_stripDb pfx db rand).mpr (hall rand hrl hr)
    rw [if_pos hin, hLR]
    simp only [if_neg (Bool.false_ne_true), List.append_nil]
    have hfnone : (List.map (loopstep DEC rand)
        (List.range (DEC.length ^ rand.length))).find?
        (fun x => decide (x ∉ stripDb pfx db)) = none := by
      rw [List.find?_eq_none]
      intro x hx hpx
      rw [decide_eq_true_eq] at hpx
      rw [List.mem_map] at hx
      obtain ⟨i, _, rfl⟩ := hx
      have hinv : (loopstep DEC rand i).length = rand.length ∧
          ∀ c ∈ loopstep DEC rand i, c ∈ DEC :=
        loopstepF_inv DEC rand.length rand (by omega) hr i
      refine hpx ((mem_stripDb pfx db _).mpr ?_)
      exact hall _ (by rw [hinv.1]; exact hrl) hinv.2
    rw [hfnone]


/-- Witness for C3: generating with an 11-digit prefix, an empty used set
and drawn suffix "3" returns the identifier 0412598630130. -/
theorem c3_witness :
    ∃ obj, EAN13new (['0', '4', '1', '2', '5', '9', '8', '6', '3', '0', '1'] ++ ['3'])
        = some obj ∧
      obj.id.length = 13 ∧
      obj.id.take (['0', '4', '1', '2', '5', '9', '8', '6', '3', '0', '1'] : Str).length
        = ['0', '4', '1', '2', '5', '9', '8', '6', '3', '0', '1'] ∧
      (∃ c, computeChecksum obj.id = some c ∧ obj.id.getLast? = some c) ∧
      ∀ u ∈ ([] : List Str), obj.id ≠ u :=
  c3_generate_success ['0', '4', '1', '2', '5', '9', '8', '6', '3', '0', '1'] ['3'] []
    (by decide) (by decide) (by decide) (by decide) (by simp)
    (EAN13new (['0', '4', '1', '2', '5', '9', '8', '6', '3', '0', '1'] ++ ['3']))
    (by decide)

/-- Witness for C4, the in-particular instance of the claim: with the
11-digit prefix 04125986301 and a used set holding all ten suffixes, the
generator raises the exhaustion error. -/
theorem c4_witness :
    generate ['0', '4', '1', '2', '5', '9', '8', '6', '3', '0', '1']
      [['0', '4', '1', '2', '5', '9', '8', '6', '3', '0', '1', '0', '9'],
       ['0', '4', '1', '2', '5', '9', '8', '6', '3', '0', '1', '1', '6'],
       ['0', '4', '1', '2', '5', '9', '8', '6', '3', '0', '1', '2', '3'],
       ['0', '4', '1', '2', '5', '9', '8', '6', '3', '0', '1', '3', '0'],
       ['0', '4', '1', '2', '5', '9', '8', '6', '3', '0', '1', '4', '7'],
       ['0', '4', '1', '2', '5', '9', '8', '6', '3', '0', '1', '5', '4'],
       ['0', '4', '1', '2', '5', '9', '8', '6', '3', '0', '1', '6', '1'],
       ['0', '4', '1', '2', '5', '9', '8', '6', '3', '0', '1', '7', '8'],
       ['0', '4', '1', '2', '5', '9', '8', '6', '3', '0', '1', '8', '5'],
       ['0', '4', '1', '2', '5', '9', '8', '6', '3', '0', '1', '9', '2']]
      ['0'] = none :=
  (c4_generate_exhaustion ['0', '4', '1', '2', '5', '9', '8', '6', '3', '0', '1'] ['0'] _
    (by decide) (by decide) (by decide) (by decide)).mpr (by
      intro sfx h1 hdg
      rcases sfx with _ | ⟨c, rest⟩
      · simp at h1
      rcases rest with _ | ⟨c2, r2⟩
      · have hc : c ∈ DEC := hdg c (List.mem_cons_self _ _)
        simp only [DEC, List.mem_cons, List.not_mem_nil, or_false] at hc
        rcases hc with rfl | rfl | rfl | rfl | rfl | rfl | rfl | rfl | rfl | rfl <;> decide
      · simp at h1)

end EAN13Spec
